import Mathlib

/-!
Shallow embedding of the commit-driven character-evolution pipeline of the
repository (src/src/scripts/character-evolution.js and the force-evolution
entry point).  External collaborators are modelled as explicit parameters:

* the commit feed (`getLatestCommitsByUser`) is a `List Commit` argument;
* the text generator (the Claude API call inside
  `generateImprovedCharacterDescription`) is a function
  `gen : String → Nat → Option String`, `none` meaning the call failed,
  `some raw` meaning it returned the raw text `raw`;
* the asset publisher (`generateCharacter`) is a `Bool` argument `pubOk`
  (its exec either succeeds or fails), and the descriptions it is invoked
  with are collected in a `published` list;
* `new Date().toISOString()` is an `Int` argument `now`; author dates are
  `Int` timestamps compared numerically, as JS compares `Date` objects.

A cycle that ends in an uncaught exception (the catch-all at the bottom of
`checkForEvolution`) persists nothing, so it is modelled as returning the
input ledger unchanged.
-/

namespace Evolution

/-- A commit as returned by the GitHub search API:
`{sha, commit:{message, author:{date}}}`. -/
structure Commit where
  sha : String
  message : String
  date : Int
deriving Repr, DecidableEq

instance : Inhabited Commit := ⟨⟨"", "", 0⟩⟩

/-- One entry of `evolutionHistory` (the object pushed at
character-evolution.js lines 321–329). -/
structure EvolutionEvent where
  level : Nat
  commitSha : String
  commitMessage : String
  commitDate : Int
  previousDescription : String
  prompt : String
  newDescription : String
deriving Repr, DecidableEq

instance : Inhabited EvolutionEvent := ⟨⟨0, "", "", 0, "", "", ""⟩⟩

/-- The persisted commit-history file (`commit-history.json`).
`lastCheckedDate` is `none` when the key is absent, as in the freshly
initialised file; the code reads it as `historyData.lastCheckedDate || 0`. -/
structure Ledger where
  lastCheckedCommit : String
  lastCheckedDate : Option Int
  currentCharacterDescription : String
  evolutionLevel : Nat
  totalCommits : Nat
  evolutionHistory : List EvolutionEvent
deriving Repr, DecidableEq

/-- The canonical initial description (character-evolution.js lines 19 and 230). -/
def initialDescription : String :=
  "Noodle scout facing right, explorer tunic, wooden spoon, steaming backpack"

/-- The ledger written when the history file does not exist
(character-evolution.js lines 16–24); identical to the `freshHistory`
object of `resetEvolutionHistory` (lines 228–234). -/
def initialLedger : Ledger :=
  { lastCheckedCommit := ""
    lastCheckedDate := none
    currentCharacterDescription := initialDescription
    evolutionLevel := 0
    totalCommits := 0
    evolutionHistory := [] }

/-- character-evolution.js line 13. -/
def COMMITS_PER_EVOLUTION : Nat := 1

/-- The external text generator: given the current description and level,
either fails (`none`) or returns the raw response text. -/
abbrev Gen := String → Nat → Option String

/-- First line of a commit message: `commit.commit.message.split('\n')[0]`. -/
def firstLine (msg : String) : String :=
  (msg.splitOn "\n").headD ""

/-- Fallback descriptions used when the Claude API fails
(character-evolution.js lines 150–156). -/
def fallbackDescriptions : List String :=
  [ "explorer facing right, simple clothes, wooden spoon, pot noodle backpack"
  , "explorer facing right, noodle-patterned clothes, glowing spoon, steaming backpack"
  , "noodle scout facing right, light armor, spoon staff, steam aura"
  , "noodle mage facing right, protective robes, magic ladle, floating noodles"
  , "noodle master facing right, armored robes, golden spoon staff, glowing broth aura" ]

/-- The prompt template sent to the generator (character-evolution.js
lines 81–114). -/
def evolutionPrompt (currentDescription : String) (evolutionLevel : Nat) : String :=
  "You are a creative game character designer specializing in pot noodle-themed characters. I have a pixel art character in my game described as: \"" ++ currentDescription ++ "\".\n\n" ++
  "This character is at evolution level " ++ toString evolutionLevel ++
  " and has just evolved to level " ++ toString (evolutionLevel + 1) ++ ".\n\n" ++
  "Please create an IMPROVED description that builds upon the current character. The improvement should be clear and drawable in pixel art style.\n\n" ++
  "The character description MUST follow this structure:\n" ++
  "1. Character type and basic pose (e.g., \"Explorer facing right\")\n" ++
  "2. Main clothing/armor (maximum 2 items)\n" ++
  "3. ONE primary tool or weapon\n" ++
  "4. ONE special effect or aura (if any)\n\n" ++
  "Keep in mind:\n" ++
  "- Descriptions must be simple enough to draw in 32x32 pixel art\n" ++
  "- Each element should be clearly visible from a top-down view\n" ++
  "- Avoid overlapping or complex layered effects\n" ++
  "- Limit particle effects and floating elements\n" ++
  "- Keep color descriptions simple and clear\n\n" ++
  "Examples of good elements:\n" ++
  "- \"Pot noodle backpack with steam vent\"\n" ++
  "- \"Noodle-woven cloak\"\n" ++
  "- \"Glowing wooden spoon\"\n" ++
  "- \"Simple steam aura\"\n\n" ++
  "The description should:\n" ++
  "1. Be very concise (20 words or less)\n" ++
  "2. Use simple, clear visual elements\n" ++
  "3. Add only ONE new feature compared to the previous form\n" ++
  "4. Keep the character instantly recognizable\n" ++
  "5. IMPORTANT: The character must be facing RIGHT\n" ++
  "6. Focus on elements that work in pixel art\n\n" ++
  "ONLY respond with the new character description text, nothing else. No explanations, no intro text, just the description."

/-- The sentinel prompt recorded when the fallback path is taken
(character-evolution.js line 164). -/
def fallbackPrompt : String := "Fallback used due to API error"

/-- Result of `generateImprovedCharacterDescription`: the prompt used and
the adopted description. -/
structure GenOutput where
  prompt : String
  description : String
deriving Repr, DecidableEq

/-- character-evolution.js lines 73–168: on generator success the trimmed
response text is adopted together with the real prompt; on any error the
catch block resolves to the fallback entry at index
`min(evolutionLevel, fallbackDescriptions.length - 1)` with the sentinel
prompt.  The function is total: the adapter never throws. -/
def generateImprovedCharacterDescription (gen : Gen)
    (currentDescription : String) (evolutionLevel : Nat) : GenOutput :=
  match gen currentDescription evolutionLevel with
  | some raw =>
      { prompt := evolutionPrompt currentDescription evolutionLevel
        description := raw.trim }
  | none =>
      let fallbackIndex := min evolutionLevel (fallbackDescriptions.length - 1)
      { prompt := fallbackPrompt
        description := fallbackDescriptions.getD fallbackIndex "" }

/-- The running state of the evolution loop of `checkForEvolution`
(lines 297–330): `currentDesc`, `currentLevel` and the `newEvolutions`
array. -/
structure StepState where
  desc : String
  level : Nat
  events : List EvolutionEvent
deriving Repr, DecidableEq

/-- One iteration of the loop at character-evolution.js lines 305–330.
`baseDesc` is the captured `currentCharacterDescription`, `startLevel` the
captured `evolutionLevel`; the iteration runs at `level = s.level + 1` and
its `previousDescription` is `baseDesc` when `level === evolutionLevel + 1`
and the previous pushed event's `newDescription` otherwise (line 326). -/
def evolveStep (gen : Gen) (baseDesc : String) (startLevel : Nat)
    (s : StepState) (c : Commit) : StepState :=
  let r := generateImprovedCharacterDescription gen s.desc s.level
  let lvl := s.level + 1
  let prev :=
    if s.level = startLevel then baseDesc
    else ((s.events.getLast?).map (fun e => e.newDescription)).getD baseDesc
  { desc := r.description
    level := lvl
    events := s.events ++
      [{ level := lvl
         commitSha := c.sha
         commitMessage := firstLine c.message
         commitDate := c.date
         previousDescription := prev
         prompt := r.prompt
         newDescription := r.description }] }

/-- The whole loop at lines 305–330, folded over the commits attributed to
the new levels (in array order — the loop indexes `newCommits` by
`level - evolutionLevel - 1`). -/
def processNewCommits (gen : Gen) (baseDesc : String) (startLevel : Nat) :
    List Commit → StepState → StepState
  | [], s => s
  | c :: cs, s => processNewCommits gen baseDesc startLevel cs (evolveStep gen baseDesc startLevel s c)

/-- The `newCommits` filter of character-evolution.js lines 283–286: a
fetched commit is kept iff `lastCheckedCommit` is falsy (empty) or its
author date is strictly later than `lastCheckedDate || 0`. -/
def newCommitsOf (L : Ledger) (commits : List Commit) : List Commit :=
  commits.filter (fun c =>
    decide (L.lastCheckedCommit = "" ∨ c.date > L.lastCheckedDate.getD 0))

/-- `updatedTotalCommits` (line 288). -/
def updatedTotalOf (L : Ledger) (commits : List Commit) : Nat :=
  L.totalCommits + (newCommitsOf L commits).length

/-- `newEvolutionLevel` (line 291). -/
def newLevelOf (L : Ledger) (commits : List Commit) : Nat :=
  updatedTotalOf L commits / COMMITS_PER_EVOLUTION

/-- Number of loop iterations of an evolving cycle
(`level` runs from `evolutionLevel + 1` to `newEvolutionLevel`). -/
def stepsOf (L : Ledger) (commits : List Commit) : Nat :=
  newLevelOf L commits - L.evolutionLevel

/-- The loop state after all iterations of an evolving cycle: the fold of
lines 305–330 starting from the captured description and level. -/
def finalStateOf (gen : Gen) (L : Ledger) (commits : List Commit) : StepState :=
  processNewCommits gen L.currentCharacterDescription L.evolutionLevel
    ((newCommitsOf L commits).take (stepsOf L commits))
    ⟨L.currentCharacterDescription, L.evolutionLevel, []⟩

/-- Result of one `checkForEvolution` cycle: the persisted ledger after the
cycle (unchanged when nothing was written) and the list of descriptions
passed to `generateCharacter` (the asset publisher). -/
structure CycleOut where
  ledger : Ledger
  published : List String
deriving Repr, DecidableEq

/-- character-evolution.js lines 257–374.  Empty fetch: return with no
mutation (line 272).  Outer guard (line 281): enter iff
`!lastCheckedCommit || latestCommitSha !== lastCheckedCommit` where
`latestCommitSha = commits[0].sha`.  Evolving branch (line 294): taken
when `newEvolutionLevel > evolutionLevel`; it folds the loop over
`newCommits[0..steps)`.  When the loop would index past the end of
`newCommits` (`steps > newCommits.length`) the access `commit.sha` throws
on `undefined`, the catch-all runs and nothing is persisted.  The
publisher (`generateCharacter`) is invoked once with the final running
description; if it fails the await rejects, the catch-all runs and
nothing is persisted.  Otherwise the updated ledger of lines 336–343 is
written.  Non-evolving branch (lines 352–360): the spread update is
written without any publisher call. -/
def checkForEvolution (gen : Gen) (pubOk : Bool) (now : Int)
    (commits : List Commit) (L : Ledger) : CycleOut :=
  match commits with
  | [] => ⟨L, []⟩
  | latest :: rest =>
    if L.lastCheckedCommit = "" ∨ latest.sha ≠ L.lastCheckedCommit then
      if newLevelOf L (latest :: rest) > L.evolutionLevel then
        if stepsOf L (latest :: rest) ≤ (newCommitsOf L (latest :: rest)).length then
          if pubOk then
            ⟨{ lastCheckedCommit := latest.sha
               lastCheckedDate := some now
               currentCharacterDescription := (finalStateOf gen L (latest :: rest)).desc
               evolutionLevel := newLevelOf L (latest :: rest)
               totalCommits := updatedTotalOf L (latest :: rest)
               evolutionHistory := L.evolutionHistory ++ (finalStateOf gen L (latest :: rest)).events },
             [(finalStateOf gen L (latest :: rest)).desc]⟩
          else ⟨L, [(finalStateOf gen L (latest :: rest)).desc]⟩
        else ⟨L, []⟩
      else
        ⟨{ L with lastCheckedCommit := latest.sha
                  lastCheckedDate := some now
                  totalCommits := updatedTotalOf L (latest :: rest) }, []⟩
    else ⟨L, []⟩

/-- Result of `resetEvolutionHistory`: the persisted ledger, the publisher
invocations, and the returned boolean. -/
structure ResetOut where
  ledger : Ledger
  published : List String
  ok : Bool
deriving Repr, DecidableEq

/-- character-evolution.js lines 225–252: writes the fresh canonical
ledger (ignoring whatever was persisted before), copies it to assets, then
awaits `generateCharacter` on the canonical description; a publisher
failure is caught and reported as `false`, with the fresh ledger already
persisted. -/
def resetEvolutionHistory (pubOk : Bool) (_L : Ledger) : ResetOut :=
  { ledger := initialLedger
    published := [initialDescription]
    ok := pubOk }

/-- The starting description hardcoded in force-evolution.js. -/
def forceInitialDescription : String :=
  "simple explorer facing right with basic pot noodle backpack and plain noodle-colored clothes"

/-- One iteration of the force-evolution loop: `previousDescription` is the
running `currentDescription` itself and the level is `i + 1`. -/
def forceStep (gen : Gen) (s : StepState) (c : Commit) : StepState :=
  let r := generateImprovedCharacterDescription gen s.desc s.level
  { desc := r.description
    level := s.level + 1
    events := s.events ++
      [{ level := s.level + 1
         commitSha := c.sha
         commitMessage := firstLine c.message
         commitDate := c.date
         previousDescription := s.desc
         prompt := r.prompt
         newDescription := r.description }] }

/-- The force-evolution loop folded over the commits to process. -/
def processForce (gen : Gen) : List Commit → StepState → StepState
  | [], s => s
  | c :: cs, s => processForce gen cs (forceStep gen s c)

/-- The commits an invocation of force-evolution processes: all fetched
commits sorted ascending by author date, first 6 taken. -/
def commitsToProcessOf (commits : List Commit) : List Commit :=
  (commits.mergeSort (fun a b => decide (a.date ≤ b.date))).take 6

/-- The loop state after the force-evolution replay. -/
def forceFinalOf (gen : Gen) (commits : List Commit) : StepState :=
  processForce gen (commitsToProcessOf commits) ⟨forceInitialDescription, 0, []⟩

/-- Result of `forceEvolution`: persisted ledger, publisher invocations,
and the truthiness of the resolved value. -/
structure ForceOut where
  ledger : Ledger
  published : List String
  ok : Bool
deriving Repr, DecidableEq

/-- force-evolution.js (`forceEvolution`): empty fetch returns (falsy)
without writing; otherwise the commits are sorted ascending by author
date, the first 6 taken, the chain replayed from
`forceInitialDescription` at level 0, `generateCharacter` awaited on the
final description (failure is caught, returns false, nothing written),
and on success a brand-new history replaces the ledger, with
`lastCheckedCommit` set to the last processed commit's sha and both
`evolutionLevel` and `totalCommits` set to the processed count. -/
def forceEvolution (gen : Gen) (pubOk : Bool) (now : Int)
    (commits : List Commit) (L : Ledger) : ForceOut :=
  match commits with
  | [] => ⟨L, [], false⟩
  | latest :: rest =>
    if pubOk then
      ⟨{ lastCheckedCommit :=
           (((commitsToProcessOf (latest :: rest)).getLast?).map (fun c => c.sha)).getD ""
         lastCheckedDate := some now
         currentCharacterDescription := (forceFinalOf gen (latest :: rest)).desc
         evolutionLevel := (commitsToProcessOf (latest :: rest)).length
         totalCommits := (commitsToProcessOf (latest :: rest)).length
         evolutionHistory := (forceFinalOf gen (latest :: rest)).events },
       [(forceFinalOf gen (latest :: rest)).desc], true⟩
    else ⟨L, [(forceFinalOf gen (latest :: rest)).desc], false⟩

/-- The chaining relation between adjacent history events. -/
def chainR (a b : EvolutionEvent) : Prop :=
  a.newDescription = b.previousDescription

instance : DecidableRel chainR :=
  fun a b => inferInstanceAs (Decidable (a.newDescription = b.previousDescription))

/-- The chaining invariant of the ledger: adjacent events agree
(newDescription of one equals previousDescription of the next) and the
current description is the last event's newDescription, or the canonical
initial description when the history is empty. -/
def chainOk (L : Ledger) : Prop :=
  List.Chain' chainR L.evolutionHistory ∧
  L.currentCharacterDescription =
    ((L.evolutionHistory.getLast?).map (fun e => e.newDescription)).getD initialDescription

instance (L : Ledger) : Decidable (chainOk L) :=
  inferInstanceAs (Decidable (_ ∧ _))

/-- The level invariant: the stored level counts the history entries. -/
def levelOk (L : Ledger) : Prop :=
  L.evolutionLevel = L.evolutionHistory.length

instance (L : Ledger) : Decidable (levelOk L) :=
  inferInstanceAs (Decidable (_ = _))

/-- Ledger states reachable from the fresh initial file through the
operations that persist the ledger: check cycles, resets and force
replays, under arbitrary external behaviour. -/
inductive Reachable : Ledger → Prop where
  | init : Reachable initialLedger
  | check (gen : Gen) (pubOk : Bool) (now : Int) (commits : List Commit) {L : Ledger} :
      Reachable L → Reachable (checkForEvolution gen pubOk now commits L).ledger
  | reset (pubOk : Bool) {L : Ledger} :
      Reachable L → Reachable (resetEvolutionHistory pubOk L).ledger
  | force (gen : Gen) (pubOk : Bool) (now : Int) (commits : List Commit) {L : Ledger} :
      Reachable L → Reachable (forceEvolution gen pubOk now commits L).ledger

/-- Invariant carried by the running loop state: the level counts the
events produced so far on top of the start level, the running description
is the last produced description (or the base before any), the produced
events chain, and the first produced event starts from the base. -/
def stepInv (base : String) (start : Nat) (s : StepState) : Prop :=
  s.level = start + s.events.length ∧
  s.desc = ((s.events.getLast?).map (fun e => e.newDescription)).getD base ∧
  List.Chain' chainR s.events ∧
  ∀ e, s.events.head? = some e → e.previousDescription = base

theorem stepInv_start (base : String) (start : Nat) :
    stepInv base start ⟨base, start, []⟩ := by
  refine ⟨by simp, by simp, List.chain'_nil, by simp⟩

theorem evolveStep_inv (gen : Gen) (base : String) (start : Nat)
    (s : StepState) (c : Commit) (h : stepInv base start s) :
    stepInv base start (evolveStep gen base start s c) := by
  obtain ⟨hlen, hdesc, hchain, hhead⟩ := h
  refine ⟨by simpa [evolveStep] using by omega, by simp [evolveStep], ?_, ?_⟩
  · rw [show (evolveStep gen base start s c).events = s.events ++ _ from rfl,
      List.chain'_append]
    refine ⟨hchain, List.chain'_singleton _, ?_⟩
    intro x hx y hy
    simp only [List.head?_cons, Option.mem_def, Option.some.injEq] at hy
    subst hy
    have hne : s.events ≠ [] := by
      intro hnil
      simp [hnil] at hx
    have hlev : ¬ s.level = start := by
      have : s.events.length ≠ 0 := fun h0 => hne (List.length_eq_zero.mp h0)
      omega
    show x.newDescription = _
    simp only [if_neg hlev]
    rw [Option.mem_def] at hx
    simp [hx]
  · intro e he
    rcases hcase : s.events with _ | ⟨e0, es⟩
    · have hlev : s.level = start := by
        rw [hcase] at hlen; simpa using hlen
      rw [show (evolveStep gen base start s c).events = s.events ++ _ from rfl,
        hcase] at he
      simp only [List.nil_append, List.head?_cons, Option.some.injEq] at he
      subst he
      simp [if_pos hlev]
    · rw [show (evolveStep gen base start s c).events = s.events ++ _ from rfl,
        hcase] at he
      simp only [List.cons_append, List.head?_cons, Option.some.injEq] at he
      subst he
      exact hhead e0 (by simp [hcase])

theorem processNewCommits_inv (gen : Gen) (base : String) (start : Nat) :
    ∀ (cs : List Commit) (s : StepState), stepInv base start s →
      stepInv base start (processNewCommits gen base start cs s)
  | [], _, h => h
  | c :: cs, s, h =>
      processNewCommits_inv gen base start cs _ (evolveStep_inv gen base start s c h)

theorem processNewCommits_length (gen : Gen) (base : String) (start : Nat) :
    ∀ (cs : List Commit) (s : StepState),
      (processNewCommits gen base start cs s).events.length = s.events.length + cs.length
  | [], s => by simp [processNewCommits]
  | c :: cs, s => by
      rw [processNewCommits, processNewCommits_length gen base start cs]
      simp [evolveStep]
      omega

theorem processNewCommits_sha (gen : Gen) (base : String) (start : Nat) :
    ∀ (cs : List Commit) (s : StepState),
      (processNewCommits gen base start cs s).events.map (fun e => e.commitSha) =
        s.events.map (fun e => e.commitSha) ++ cs.map (fun c => c.sha)
  | [], s => by simp [processNewCommits]
  | c :: cs, s => by
      rw [processNewCommits, processNewCommits_sha gen base start cs]
      simp [evolveStep]

theorem forceStep_inv (gen : Gen) (base : String)
    (s : StepState) (c : Commit) (h : stepInv base 0 s) :
    stepInv base 0 (forceStep gen s c) := by
  obtain ⟨hlen, hdesc, hchain, hhead⟩ := h
  refine ⟨by simpa [forceStep] using by omega, by simp [forceStep], ?_, ?_⟩
  · rw [show (forceStep gen s c).events = s.events ++ _ from rfl, List.chain'_append]
    refine ⟨hchain, List.chain'_singleton _, ?_⟩
    intro x hx y hy
    simp only [List.head?_cons, Option.mem_def, Option.some.injEq] at hy
    subst hy
    show x.newDescription = s.desc
    rw [Option.mem_def] at hx
    simp [hdesc, hx]
  · intro e he
    rcases hcase : s.events with _ | ⟨e0, es⟩
    · rw [show (forceStep gen s c).events = s.events ++ _ from rfl, hcase] at he
      simp only [List.nil_append, List.head?_cons, Option.some.injEq] at he
      subst he
      simpa [hcase] using hdesc
    · rw [show (forceStep gen s c).events = s.events ++ _ from rfl, hcase] at he
      simp only [List.cons_append, List.head?_cons, Option.some.injEq] at he
      subst he
      exact hhead e0 (by simp [hcase])

theorem processForce_inv (gen : Gen) (base : String) :
    ∀ (cs : List Commit) (s : StepState), stepInv base 0 s →
      stepInv base 0 (processForce gen cs s)
  | [], _, h => h
  | c :: cs, s, h =>
      processForce_inv gen base cs _ (forceStep_inv gen base s c h)

theorem processForce_length (gen : Gen) :
    ∀ (cs : List Commit) (s : StepState),
      (processForce gen cs s).events.length = s.events.length + cs.length
  | [], s => by simp [processForce]
  | c :: cs, s => by
      rw [processForce, processForce_length gen cs]
      simp [forceStep]
      omega

theorem finalStateOf_inv (gen : Gen) (L : Ledger) (commits : List Commit) :
    stepInv L.currentCharacterDescription L.evolutionLevel (finalStateOf gen L commits) :=
  processNewCommits_inv gen _ _ _ _ (stepInv_start _ _)

theorem finalStateOf_length (gen : Gen) (L : Ledger) (commits : List Commit) :
    (finalStateOf gen L commits).events.length =
      min (stepsOf L commits) (newCommitsOf L commits).length := by
  simp [finalStateOf, processNewCommits_length, List.length_take]

theorem finalStateOf_events_ne_nil (gen : Gen) (L : Ledger) (commits : List Commit)
    (h2 : newLevelOf L commits > L.evolutionLevel)
    (h3 : stepsOf L commits ≤ (newCommitsOf L commits).length) :
    (finalStateOf gen L commits).events ≠ [] := by
  intro hnil
  have hlen := finalStateOf_length gen L commits
  rw [hnil] at hlen
  have hpos : 0 < stepsOf L commits := by
    unfold stepsOf
    omega
  simp only [List.length_nil] at hlen
  omega

theorem checkForEvolution_chainOk (gen : Gen) (pubOk : Bool) (now : Int)
    (commits : List Commit) (L : Ledger) (h : chainOk L) :
    chainOk (checkForEvolution gen pubOk now commits L).ledger := by
  cases commits with
  | nil => exact h
  | cons latest rest =>
    by_cases h1 : L.lastCheckedCommit = "" ∨ latest.sha ≠ L.lastCheckedCommit
    · by_cases h2 : newLevelOf L (latest :: rest) > L.evolutionLevel
      · by_cases h3 : stepsOf L (latest :: rest) ≤ (newCommitsOf L (latest :: rest)).length
        · cases pubOk with
          | false =>
            simp only [checkForEvolution, if_pos h1, if_pos h2, if_pos h3, Bool.false_eq_true,
              if_false]
            exact h
          | true =>
            simp only [checkForEvolution, if_pos h1, if_pos h2, if_pos h3, if_true]
            obtain ⟨hlev, hdesc, hchain, hhead⟩ := finalStateOf_inv gen L (latest :: rest)
            have hne := finalStateOf_events_ne_nil gen L (latest :: rest) h2 h3
            rcases hq : (finalStateOf gen L (latest :: rest)).events.getLast? with _ | last
            · exact absurd (List.getLast?_eq_none_iff.mp hq) hne
            constructor
            · show List.Chain' chainR (L.evolutionHistory ++ _)
              rw [List.chain'_append]
              refine ⟨h.1, hchain, ?_⟩
              intro x hx y hy
              have hyprev : y.previousDescription = L.currentCharacterDescription :=
                hhead y (Option.mem_def.mp hy)
              have hxnew : L.currentCharacterDescription = x.newDescription := by
                have := h.2
                rw [Option.mem_def] at hx
                simpa [hx] using this
              show x.newDescription = y.previousDescription
              rw [hyprev, ← hxnew]
            · show (finalStateOf gen L (latest :: rest)).desc =
                (((L.evolutionHistory ++ (finalStateOf gen L (latest :: rest)).events).getLast?).map
                  (fun e => e.newDescription)).getD initialDescription
              rw [List.getLast?_append, hq]
              simp only [Option.or_some, Option.map_some', Option.getD_some]
              rw [hdesc, hq]
              simp
        · simp only [checkForEvolution, if_pos h1, if_pos h2, if_neg h3]
          exact h
      · simp only [checkForEvolution, if_pos h1, if_neg h2]
        exact h
    · simp only [checkForEvolution, if_neg h1]
      exact h

theorem checkForEvolution_levelOk (gen : Gen) (pubOk : Bool) (now : Int)
    (commits : List Commit) (L : Ledger) (h : levelOk L) :
    levelOk (checkForEvolution gen pubOk now commits L).ledger := by
  cases commits with
  | nil => exact h
  | cons latest rest =>
    by_cases h1 : L.lastCheckedCommit = "" ∨ latest.sha ≠ L.lastCheckedCommit
    · by_cases h2 : newLevelOf L (latest :: rest) > L.evolutionLevel
      · by_cases h3 : stepsOf L (latest :: rest) ≤ (newCommitsOf L (latest :: rest)).length
        · cases pubOk with
          | false =>
            simp only [checkForEvolution, if_pos h1, if_pos h2, if_pos h3, Bool.false_eq_true,
              if_false]
            exact h
          | true =>
            simp only [checkForEvolution, if_pos h1, if_pos h2, if_pos h3, if_true]
            show newLevelOf L (latest :: rest) =
              (L.evolutionHistory ++ (finalStateOf gen L (latest :: rest)).events).length
            rw [List.length_append, finalStateOf_length]
            have hsteps : stepsOf L (latest :: rest) =
                newLevelOf L (latest :: rest) - L.evolutionLevel := rfl
            have hL := h
            unfold levelOk at hL
            omega
        · simp only [checkForEvolution, if_pos h1, if_pos h2, if_neg h3]
          exact h
      · simp only [checkForEvolution, if_pos h1, if_neg h2]
        exact h
    · simp only [checkForEvolution, if_neg h1]
      exact h

theorem forceFinalOf_inv (gen : Gen) (commits : List Commit) :
    stepInv forceInitialDescription 0 (forceFinalOf gen commits) :=
  processForce_inv gen _ _ _ (stepInv_start _ _)

theorem forceFinalOf_length (gen : Gen) (commits : List Commit) :
    (forceFinalOf gen commits).events.length = (commitsToProcessOf commits).length := by
  simp [forceFinalOf, processForce_length]

theorem commitsToProcessOf_ne_nil (latest : Commit) (rest : List Commit) :
    commitsToProcessOf (latest :: rest) ≠ [] := by
  unfold commitsToProcessOf
  intro hnil
  have := congrArg List.length hnil
  rw [List.length_take, List.length_mergeSort] at this
  simp at this

theorem forceEvolution_chainOk (gen : Gen) (pubOk : Bool) (now : Int)
    (commits : List Commit) (L : Ledger) (h : chainOk L) :
    chainOk (forceEvolution gen pubOk now commits L).ledger := by
  cases commits with
  | nil => exact h
  | cons latest rest =>
    cases pubOk with
    | false => exact h
    | true =>
      simp only [forceEvolution, if_true]
      obtain ⟨hlev, hdesc, hchain, hhead⟩ := forceFinalOf_inv gen (latest :: rest)
      have hne : (forceFinalOf gen (latest :: rest)).events ≠ [] := by
        intro hnil
        have := forceFinalOf_length gen (latest :: rest)
        rw [hnil] at this
        exact commitsToProcessOf_ne_nil latest rest
          (List.length_eq_zero.mp this.symm)
      rcases hq : (forceFinalOf gen (latest :: rest)).events.getLast? with _ | last
      · exact absurd (List.getLast?_eq_none_iff.mp hq) hne
      refine ⟨hchain, ?_⟩
      show (forceFinalOf gen (latest :: rest)).desc =
        (((forceFinalOf gen (latest :: rest)).events.getLast?).map
          (fun e => e.newDescription)).getD initialDescription
      rw [hq, hdesc, hq]
      simp

theorem forceEvolution_levelOk (gen : Gen) (pubOk : Bool) (now : Int)
    (commits : List Commit) (L : Ledger) (h : levelOk L) :
    levelOk (forceEvolution gen pubOk now commits L).ledger := by
  cases commits with
  | nil => exact h
  | cons latest rest =>
    cases pubOk with
    | false => exact h
    | true =>
      simp only [forceEvolution, if_true]
      show (commitsToProcessOf (latest :: rest)).length =
        (forceFinalOf gen (latest :: rest)).events.length
      rw [forceFinalOf_length]

theorem finalStateOf_sha (gen : Gen) (L : Ledger) (commits : List Commit) :
    (finalStateOf gen L commits).events.map (fun e => e.commitSha) =
      ((newCommitsOf L commits).take (stepsOf L commits)).map (fun c => c.sha) := by
  simpa [finalStateOf] using
    processNewCommits_sha gen L.currentCharacterDescription L.evolutionLevel
      ((newCommitsOf L commits).take (stepsOf L commits))
      ⟨L.currentCharacterDescription, L.evolutionLevel, []⟩

theorem checkForEvolution_cursor_hit (gen : Gen) (pubOk : Bool) (now : Int)
    (latest : Commit) (rest : List Commit) (L : Ledger)
    (hc : L.lastCheckedCommit = latest.sha) (hs : latest.sha ≠ "") :
    (checkForEvolution gen pubOk now (latest :: rest) L).ledger = L := by
  have h1 : ¬ (L.lastCheckedCommit = "" ∨ latest.sha ≠ L.lastCheckedCommit) := by
    push_neg
    exact ⟨by rw [hc]; exact hs, by rw [hc]⟩
  simp only [checkForEvolution, if_neg h1]

/-- A generator oracle that always fails, driving every step through the
deterministic fallback path. -/
def genNone : Gen := fun _ _ => none

/-- C1 counterexample: the cycle filter is a cursor-date comparison, not a
dedup by commit id.  Starting from the fresh ledger, a first cycle at time
10 records commit id `a` (author date 100); a second cycle at time 20
whose fetch lists a new head `b` (date 5, not after the cursor) and `a`
again (date 100, after the cursor) appends a second event for `a`, so the
history holds two events with the same commit id. -/
theorem c1_counterexample :
    ((checkForEvolution genNone true 20 [⟨"b", "m2", 5⟩, ⟨"a", "m1", 100⟩]
        (checkForEvolution genNone true 10 [⟨"a", "m1", 100⟩] initialLedger).ledger).ledger.evolutionHistory.map
      (fun e => e.commitSha) = ["a", "a"]) ∧
    ¬ List.Pairwise (fun a b => a ≠ b)
        ((checkForEvolution genNone true 20 [⟨"b", "m2", 5⟩, ⟨"a", "m1", 100⟩]
          (checkForEvolution genNone true 10 [⟨"a", "m1", 100⟩] initialLedger).ledger).ledger.evolutionHistory.map
        (fun e => e.commitSha)) := by
  refine ⟨by decide, by decide⟩

/-- C1 amended: the new-commit set of a cycle is selected by cursor
comparison, not by commit-id membership in the history: a fetched commit
is in the set iff the stored `lastCheckedCommit` is empty or the commit's
author date is strictly later than the stored `lastCheckedDate` (taken as
0 when absent).  The processed-commit history is never consulted, so an
already-recorded commit id can be selected again. -/
theorem c1_amended_cursor_filter (L : Ledger) (commits : List Commit) (c : Commit) :
    c ∈ newCommitsOf L commits ↔
      c ∈ commits ∧ (L.lastCheckedCommit = "" ∨ c.date > L.lastCheckedDate.getD 0) := by
  simp [newCommitsOf, List.mem_filter]

/-- C2 counterexample: three commits with author dates 5 < 10 < 20 fetched
in the order 20, 10, 5 are appended to history in fetch order 20, 10, 5,
not in the ascending order 5, 10, 20 the claim requires. -/
theorem c2_counterexample :
    ((checkForEvolution genNone true 0
        [⟨"c2", "m2", 20⟩, ⟨"c1", "m1", 10⟩, ⟨"c3", "m3", 5⟩] initialLedger).ledger.evolutionHistory.map
      (fun e => e.commitDate) = [20, 10, 5]) ∧
    ((checkForEvolution genNone true 0
        [⟨"c2", "m2", 20⟩, ⟨"c1", "m1", 10⟩, ⟨"c3", "m3", 5⟩] initialLedger).ledger.evolutionHistory.map
      (fun e => e.commitDate) ≠ [5, 10, 20]) := by
  refine ⟨by decide, by decide⟩

/-- C2 amended: within one cycle the new-commit set is folded in fetch
order — the evolving branch appends events whose commit ids are exactly
the ids of the first `steps` entries of the filtered fetch list, in the
order CommitSource returned them; no sorting by author timestamp is
performed. -/
theorem c2_amended_fetch_order (gen : Gen) (now : Int)
    (latest : Commit) (rest : List Commit) (L : Ledger)
    (h1 : L.lastCheckedCommit = "" ∨ latest.sha ≠ L.lastCheckedCommit)
    (h2 : newLevelOf L (latest :: rest) > L.evolutionLevel)
    (h3 : stepsOf L (latest :: rest) ≤ (newCommitsOf L (latest :: rest)).length) :
    (checkForEvolution gen true now (latest :: rest) L).ledger.evolutionHistory.map
        (fun e => e.commitSha) =
      L.evolutionHistory.map (fun e => e.commitSha) ++
        ((newCommitsOf L (latest :: rest)).take (stepsOf L (latest :: rest))).map
          (fun c => c.sha) := by
  simp only [checkForEvolution, if_pos h1, if_pos h2, if_pos h3, if_true]
  rw [List.map_append, finalStateOf_sha]

/-- C2 amended claim witness at the three-commit scenario. -/
theorem c2_amended_fetch_order_witness :
    (initialLedger.lastCheckedCommit = "" ∨
      (⟨"c2", "m2", 20⟩ : Commit).sha ≠ initialLedger.lastCheckedCommit) ∧
    (checkForEvolution genNone true 0
        [⟨"c2", "m2", 20⟩, ⟨"c1", "m1", 10⟩, ⟨"c3", "m3", 5⟩] initialLedger).ledger.evolutionHistory.map
      (fun e => e.commitSha) =
      initialLedger.evolutionHistory.map (fun e => e.commitSha) ++
        ((newCommitsOf initialLedger [⟨"c2", "m2", 20⟩, ⟨"c1", "m1", 10⟩, ⟨"c3", "m3", 5⟩]).take
          (stepsOf initialLedger [⟨"c2", "m2", 20⟩, ⟨"c1", "m1", 10⟩, ⟨"c3", "m3", 5⟩])).map
          (fun c => c.sha) :=
  ⟨Or.inl rfl,
    c2_amended_fetch_order genNone 0 ⟨"c2", "m2", 20⟩ [⟨"c1", "m1", 10⟩, ⟨"c3", "m3", 5⟩]
      initialLedger (Or.inl rfl) (by decide) (by decide)⟩

/-- C3: a cycle whose asset-publisher invocation fails persists nothing:
whenever the publisher was actually invoked (`published ≠ []`) and fails
(`pubOk = false`), the ledger after the cycle equals the ledger before,
so every EvolutionEvent computed in the cycle is discarded. -/
theorem c3_publish_failure_rollback (gen : Gen) (now : Int)
    (commits : List Commit) (L : Ledger)
    (h : (checkForEvolution gen false now commits L).published ≠ []) :
    (checkForEvolution gen false now commits L).ledger = L := by
  cases commits with
  | nil => rfl
  | cons latest rest =>
    by_cases h1 : L.lastCheckedCommit = "" ∨ latest.sha ≠ L.lastCheckedCommit
    · by_cases h2 : newLevelOf L (latest :: rest) > L.evolutionLevel
      · by_cases h3 : stepsOf L (latest :: rest) ≤ (newCommitsOf L (latest :: rest)).length
        · simp only [checkForEvolution, if_pos h1, if_pos h2, if_pos h3,
            Bool.false_eq_true, if_false]
        · simp only [checkForEvolution, if_pos h1, if_pos h2, if_neg h3]
      · exfalso
        apply h
        simp only [checkForEvolution, if_pos h1, if_neg h2]
    · simp only [checkForEvolution, if_neg h1]

/-- C3 witness: publisher invoked and failing on a concrete one-commit
cycle leaves the fresh ledger untouched. -/
theorem c3_publish_failure_rollback_witness :
    (checkForEvolution genNone false 0 [⟨"a", "m1", 100⟩] initialLedger).published ≠ [] ∧
    (checkForEvolution genNone false 0 [⟨"a", "m1", 100⟩] initialLedger).ledger = initialLedger :=
  ⟨by decide, c3_publish_failure_rollback genNone 0 [⟨"a", "m1", 100⟩] initialLedger (by decide)⟩

/-- C4: with an unchanged commit feed, a second cycle run after a first
cycle whose publisher succeeded leaves the persisted ledger identical to
its state after the first run, for any generator behaviour and publisher
outcome of the second run; commit ids are assumed nonempty, the empty
string being the absent-cursor sentinel. -/
theorem c4_idempotent_when_feed_unchanged (gen1 gen2 : Gen) (pub2 : Bool)
    (now1 now2 : Int) (commits : List Commit) (L : Ledger)
    (h : ∀ c ∈ commits, c.sha ≠ "") :
    (checkForEvolution gen2 pub2 now2 commits
        (checkForEvolution gen1 true now1 commits L).ledger).ledger =
      (checkForEvolution gen1 true now1 commits L).ledger := by
  cases commits with
  | nil => rfl
  | cons latest rest =>
    have hsha : latest.sha ≠ "" := h latest (List.mem_cons_self _ _)
    by_cases h1 : L.lastCheckedCommit = "" ∨ latest.sha ≠ L.lastCheckedCommit
    · by_cases h2 : newLevelOf L (latest :: rest) > L.evolutionLevel
      · by_cases h3 : stepsOf L (latest :: rest) ≤ (newCommitsOf L (latest :: rest)).length
        · have e1 : (checkForEvolution gen1 true now1 (latest :: rest) L).ledger =
              { lastCheckedCommit := latest.sha
                lastCheckedDate := some now1
                currentCharacterDescription := (finalStateOf gen1 L (latest :: rest)).desc
                evolutionLevel := newLevelOf L (latest :: rest)
                totalCommits := updatedTotalOf L (latest :: rest)
                evolutionHistory :=
                  L.evolutionHistory ++ (finalStateOf gen1 L (latest :: rest)).events } := by
            simp only [checkForEvolution, if_pos h1, if_pos h2, if_pos h3, if_true]
          rw [e1]
          exact checkForEvolution_cursor_hit gen2 pub2 now2 latest rest _ rfl hsha
        · have e1 : (checkForEvolution gen1 true now1 (latest :: rest) L).ledger = L := by
            simp only [checkForEvolution, if_pos h1, if_pos h2, if_neg h3]
          rw [e1]
          simp only [checkForEvolution, if_pos h1, if_pos h2, if_neg h3]
      · have e1 : (checkForEvolution gen1 true now1 (latest :: rest) L).ledger =
            { L with lastCheckedCommit := latest.sha
                     lastCheckedDate := some now1
                     totalCommits := updatedTotalOf L (latest :: rest) } := by
          simp only [checkForEvolution, if_pos h1, if_neg h2]
        rw [e1]
        exact checkForEvolution_cursor_hit gen2 pub2 now2 latest rest _ rfl hsha
    · have e1 : (checkForEvolution gen1 true now1 (latest :: rest) L).ledger = L := by
        simp only [checkForEvolution, if_neg h1]
      rw [e1]
      simp only [checkForEvolution, if_neg h1]

/-- C4 witness: a concrete successful cycle followed by a repeat of the
same feed leaves the ledger unchanged. -/
theorem c4_idempotent_when_feed_unchanged_witness :
    (∀ c ∈ ([⟨"a", "m1", 100⟩] : List Commit), c.sha ≠ "") ∧
    (checkForEvolution genNone false 99 [⟨"a", "m1", 100⟩]
        (checkForEvolution genNone true 10 [⟨"a", "m1", 100⟩] initialLedger).ledger).ledger =
      (checkForEvolution genNone true 10 [⟨"a", "m1", 100⟩] initialLedger).ledger :=
  ⟨by decide,
    c4_idempotent_when_feed_unchanged genNone genNone false 10 99 [⟨"a", "m1", 100⟩]
      initialLedger (by decide)⟩

/-- C5: every ledger state reachable from the fresh ledger through check
cycles, resets and force replays satisfies the chaining invariant:
adjacent history events agree (the newDescription of event k is the
previousDescription of event k+1, including across cycle boundaries, the
first event of a cycle starting from the pre-cycle current description),
and the current description equals the last event's newDescription, or
the canonical initial description when the history is empty. -/
theorem c5_chaining_invariant (L : Ledger) (h : Reachable L) : chainOk L := by
  induction h with
  | init => exact ⟨List.chain'_nil, rfl⟩
  | check gen pubOk now commits _ ih =>
      exact checkForEvolution_chainOk gen pubOk now commits _ ih
  | reset pubOk _ _ => exact ⟨List.chain'_nil, rfl⟩
  | force gen pubOk now commits _ ih =>
      exact forceEvolution_chainOk gen pubOk now commits _ ih

/-- C5 witness at the freshly created ledger. -/
theorem c5_chaining_invariant_witness : Reachable initialLedger ∧ chainOk initialLedger :=
  ⟨Reachable.init, c5_chaining_invariant initialLedger Reachable.init⟩

/-- C6: when the generator fails for a step at running level `s.level`,
the adapter does not throw: it resolves to the fallback table entry at
index `min(level, tableLength - 1)` with the sentinel prompt, the event
appended by the step records that sentinel prompt and the fallback
description, and the loop continues with the fallback as the running
description. -/
theorem c6_generator_failure_fallback (gen : Gen) (base : String) (start : Nat)
    (s : StepState) (c : Commit) (h : gen s.desc s.level = none) :
    generateImprovedCharacterDescription gen s.desc s.level =
      ⟨fallbackPrompt,
        fallbackDescriptions.getD (min s.level (fallbackDescriptions.length - 1)) ""⟩ ∧
    (evolveStep gen base start s c).desc =
      fallbackDescriptions.getD (min s.level (fallbackDescriptions.length - 1)) "" ∧
    ((evolveStep gen base start s c).events.getLast?).map (fun e => e.prompt) =
      some fallbackPrompt ∧
    ((evolveStep gen base start s c).events.getLast?).map (fun e => e.newDescription) =
      some (fallbackDescriptions.getD (min s.level (fallbackDescriptions.length - 1)) "") := by
  have hgen : generateImprovedCharacterDescription gen s.desc s.level =
      ⟨fallbackPrompt,
        fallbackDescriptions.getD (min s.level (fallbackDescriptions.length - 1)) ""⟩ := by
    simp [generateImprovedCharacterDescription, h]
  refine ⟨hgen, ?_, ?_, ?_⟩ <;>
    simp [evolveStep, hgen, List.getLast?_append]

/-- C6 witness at a concrete failing step. -/
theorem c6_generator_failure_fallback_witness :
    genNone initialDescription 0 = none ∧
    generateImprovedCharacterDescription genNone initialDescription 0 =
      ⟨fallbackPrompt,
        fallbackDescriptions.getD (min 0 (fallbackDescriptions.length - 1)) ""⟩ :=
  ⟨rfl,
    (c6_generator_failure_fallback genNone initialDescription 0
      ⟨initialDescription, 0, []⟩ ⟨"a", "m1", 100⟩ rfl).1⟩

theorem processForce_shaDate (gen : Gen) :
    ∀ (cs : List Commit) (s : StepState),
      (processForce gen cs s).events.map (fun e => (e.commitSha, e.commitDate)) =
        s.events.map (fun e => (e.commitSha, e.commitDate)) ++ cs.map (fun c => (c.sha, c.date))
  | [], _ => by simp [processForce]
  | c :: cs, s => by
      rw [processForce, processForce_shaDate gen cs]
      simp [forceStep]

theorem forceFinalOf_shaDate (gen : Gen) (commits : List Commit) :
    (forceFinalOf gen commits).events.map (fun e => (e.commitSha, e.commitDate)) =
      (commitsToProcessOf commits).map (fun c => (c.sha, c.date)) := by
  simpa [forceFinalOf] using
    processForce_shaDate gen (commitsToProcessOf commits) ⟨forceInitialDescription, 0, []⟩

theorem commitsToProcessOf_sorted (commits : List Commit) :
    List.Pairwise (fun a b : Commit => a.date ≤ b.date) (commitsToProcessOf commits) := by
  have hs : List.Pairwise (fun a b : Commit => decide (a.date ≤ b.date) = true)
      (commits.mergeSort (fun a b => decide (a.date ≤ b.date))) := by
    refine List.sorted_mergeSort ?_ ?_ commits
    · intro a b c hab hbc
      simp only [decide_eq_true_eq] at hab hbc ⊢
      exact le_trans hab hbc
    · intro a b
      simp only [Bool.or_eq_true, decide_eq_true_eq]
      exact le_total a.date b.date
  have ht := List.Pairwise.sublist (List.take_sublist 6 _) hs
  exact List.Pairwise.imp (fun h => of_decide_eq_true h) ht

/-- C7 counterexample: a forced replay over one commit produces a first
event whose previousDescription is the hardcoded force-replay start
description, which differs from the canonical initial description the
claim requires the replay to start from. -/
theorem c7_counterexample :
    ((forceEvolution genNone true 0 [⟨"a", "m1", 100⟩] initialLedger).ledger.evolutionHistory.map
        (fun e => e.previousDescription) = [forceInitialDescription]) ∧
      forceInitialDescription ≠ initialDescription := by
  have hms : commitsToProcessOf [⟨"a", "m1", 100⟩] = [⟨"a", "m1", 100⟩] := by
    simp [commitsToProcessOf]
  constructor
  · simp only [forceEvolution, if_true]
    show (forceFinalOf genNone [⟨"a", "m1", 100⟩]).events.map (fun e => e.previousDescription) = _
    rw [forceFinalOf, hms]
    decide
  · decide

/-- C7 amended: the force replay ignores the prior ledger entirely (its
result is independent of it), re-fetches all commits, sorts them
ascending by author date, takes the oldest `min 6 count` of them (the
bound 6 is hardcoded, not a parameter), replays from the fixed
force-replay start description at level 0, and on publisher success
replaces the ledger with a brand-new history whose events are exactly
those selected commits in that sorted order — event k carries the sha and
author date of the k-th entry of the date-sorted permutation of the fetch,
so the persisted history is ascending by commit date — with the level
equal to the selected count. -/
theorem c7_amended_replay (gen : Gen) (now : Int)
    (latest : Commit) (rest : List Commit) (L L' : Ledger) :
    (forceEvolution gen true now (latest :: rest) L).ledger.evolutionLevel =
        min 6 (latest :: rest).length ∧
    (forceEvolution gen true now (latest :: rest) L).ledger.evolutionHistory.length =
        min 6 (latest :: rest).length ∧
    (forceEvolution gen true now (latest :: rest) L).ledger.evolutionHistory.map
        (fun e => (e.commitSha, e.commitDate)) =
      (((latest :: rest).mergeSort (fun a b => decide (a.date ≤ b.date))).take 6).map
        (fun c => (c.sha, c.date)) ∧
    ((latest :: rest).mergeSort (fun a b => decide (a.date ≤ b.date))).Perm (latest :: rest) ∧
    List.Pairwise (fun e e' : EvolutionEvent => e.commitDate ≤ e'.commitDate)
      (forceEvolution gen true now (latest :: rest) L).ledger.evolutionHistory ∧
    (∀ e, (forceEvolution gen true now (latest :: rest) L).ledger.evolutionHistory.head? = some e →
        e.previousDescription = forceInitialDescription) ∧
    forceEvolution gen true now (latest :: rest) L =
      forceEvolution gen true now (latest :: rest) L' := by
  refine ⟨?_, ?_, ?_, List.mergeSort_perm _ _, ?_, ?_, rfl⟩
  · simp only [forceEvolution, if_true]
    show (commitsToProcessOf (latest :: rest)).length = _
    rw [commitsToProcessOf, List.length_take, List.length_mergeSort]
  · simp only [forceEvolution, if_true]
    show (forceFinalOf gen (latest :: rest)).events.length = _
    rw [forceFinalOf_length, commitsToProcessOf, List.length_take, List.length_mergeSort]
  · simp only [forceEvolution, if_true]
    show (forceFinalOf gen (latest :: rest)).events.map (fun e => (e.commitSha, e.commitDate)) = _
    rw [forceFinalOf_shaDate]
    rfl
  · simp only [forceEvolution, if_true]
    show List.Pairwise _ (forceFinalOf gen (latest :: rest)).events
    have h1 : List.Pairwise (fun p q : String × Int => p.2 ≤ q.2)
        ((commitsToProcessOf (latest :: rest)).map (fun c => (c.sha, c.date))) := by
      rw [List.pairwise_map]
      exact commitsToProcessOf_sorted (latest :: rest)
    rw [← forceFinalOf_shaDate gen (latest :: rest), List.pairwise_map] at h1
    exact h1
  · simp only [forceEvolution, if_true]
    exact (forceFinalOf_inv gen (latest :: rest)).2.2.2

/-- C7 amended claim witness at a concrete two-commit replay. -/
theorem c7_amended_replay_witness :
    (forceEvolution genNone true 0 [⟨"a", "m1", 100⟩, ⟨"b", "m2", 5⟩] initialLedger).ledger.evolutionLevel =
        min 6 ([⟨"a", "m1", 100⟩, ⟨"b", "m2", 5⟩] : List Commit).length ∧
    (forceEvolution genNone true 0 [⟨"a", "m1", 100⟩, ⟨"b", "m2", 5⟩] initialLedger).ledger.evolutionHistory.length =
        min 6 ([⟨"a", "m1", 100⟩, ⟨"b", "m2", 5⟩] : List Commit).length ∧
    (forceEvolution genNone true 0 [⟨"a", "m1", 100⟩, ⟨"b", "m2", 5⟩] initialLedger).ledger.evolutionHistory.map
        (fun e => (e.commitSha, e.commitDate)) =
      ((([⟨"a", "m1", 100⟩, ⟨"b", "m2", 5⟩] : List Commit).mergeSort
          (fun a b => decide (a.date ≤ b.date))).take 6).map (fun c => (c.sha, c.date)) ∧
    (([⟨"a", "m1", 100⟩, ⟨"b", "m2", 5⟩] : List Commit).mergeSort
        (fun a b => decide (a.date ≤ b.date))).Perm [⟨"a", "m1", 100⟩, ⟨"b", "m2", 5⟩] ∧
    List.Pairwise (fun e e' : EvolutionEvent => e.commitDate ≤ e'.commitDate)
      (forceEvolution genNone true 0 [⟨"a", "m1", 100⟩, ⟨"b", "m2", 5⟩] initialLedger).ledger.evolutionHistory ∧
    (∀ e, (forceEvolution genNone true 0 [⟨"a", "m1", 100⟩, ⟨"b", "m2", 5⟩] initialLedger).ledger.evolutionHistory.head? = some e →
        e.previousDescription = forceInitialDescription) ∧
    forceEvolution genNone true 0 [⟨"a", "m1", 100⟩, ⟨"b", "m2", 5⟩] initialLedger =
      forceEvolution genNone true 0 [⟨"a", "m1", 100⟩, ⟨"b", "m2", 5⟩]
        (checkForEvolution genNone true 10 [⟨"a", "m1", 100⟩] initialLedger).ledger :=
  c7_amended_replay genNone 0 ⟨"a", "m1", 100⟩ [⟨"b", "m2", 5⟩] initialLedger
    (checkForEvolution genNone true 10 [⟨"a", "m1", 100⟩] initialLedger).ledger

/-- C8: every reachable ledger state has its level equal to the length of
its history, and each persisting operation (check cycles in both
branches, reset, force replay) preserves this equality. -/
theorem c8_level_invariant (L : Ledger) (h : Reachable L) : levelOk L := by
  induction h with
  | init => rfl
  | check gen pubOk now commits _ ih =>
      exact checkForEvolution_levelOk gen pubOk now commits _ ih
  | reset pubOk _ _ => rfl
  | force gen pubOk now commits _ ih =>
      exact forceEvolution_levelOk gen pubOk now commits _ ih

/-- C8 witness at the freshly created ledger. -/
theorem c8_level_invariant_witness : Reachable initialLedger ∧ levelOk initialLedger :=
  ⟨Reachable.init, c8_level_invariant initialLedger Reachable.init⟩

/-- C9: for every prior ledger state and publisher outcome, reset replaces
the ledger by the canonical default — level 0, empty history, canonical
description — and invokes the asset publisher exactly once, with the
canonical description. -/
theorem c9_reset_canonical (pubOk : Bool) (L : Ledger) :
    (resetEvolutionHistory pubOk L).ledger.evolutionLevel = 0 ∧
    (resetEvolutionHistory pubOk L).ledger.evolutionHistory = [] ∧
    (resetEvolutionHistory pubOk L).ledger.currentCharacterDescription = initialDescription ∧
    (resetEvolutionHistory pubOk L).published = [initialDescription] :=
  ⟨rfl, rfl, rfl, rfl⟩

/-- C10: reset is not atomic with respect to publisher failure: the
canonical ledger is persisted before the publisher runs, so when the
publisher fails the canonical ledger remains persisted — the prior ledger
is not restored — and the operation reports failure by returning false. -/
theorem c10_reset_not_atomic (L : Ledger) (h : L ≠ initialLedger) :
    (resetEvolutionHistory false L).ledger = initialLedger ∧
    (resetEvolutionHistory false L).ok = false ∧
    (resetEvolutionHistory false L).ledger ≠ L :=
  ⟨rfl, rfl, fun he => h (he.symm)⟩

/-- C10 witness at a concrete non-canonical prior ledger. -/
theorem c10_reset_not_atomic_witness :
    ({ initialLedger with evolutionLevel := 2 } ≠ initialLedger) ∧
    (resetEvolutionHistory false { initialLedger with evolutionLevel := 2 }).ledger =
      initialLedger ∧
    (resetEvolutionHistory false { initialLedger with evolutionLevel := 2 }).ok = false ∧
    (resetEvolutionHistory false { initialLedger with evolutionLevel := 2 }).ledger ≠
      { initialLedger with evolutionLevel := 2 } :=
  ⟨by decide, c10_reset_not_atomic { initialLedger with evolutionLevel := 2 } (by decide)⟩

end Evolution
